import Mathlib

/-!
Verification of the Dogbone geometric/topological core.

This file gives a shallow embedding of the core routines of the Dogbone
add-in (`lib/utils/dbutils.py` and the placement logic of `Dogbone.py`)
and proves or refutes the behavioural claims stated about them.

Conventions of the embedding:
* topology (vertices, edges, faces of a body) is modelled with explicit
  identifiers and lists, mirroring the host kernel's query interface;
* geometry is exact: points and vectors are triples of real numbers,
  `Point3D.vectorTo`, `Plane.intersectWithLine`, dot and cross products
  are their textbook definitions; the kernel's tolerance-based tests
  become exact tests;
* fallible kernel calls (a Python function that can raise, or return
  `False`/`None`) return `Except`/`Option` values.
-/

namespace DB

/-! ## Topological model used by `getCornerEdgesAtFace` (dbutils.py:99-113)

A vertex is an identifier; an edge carries its `entityToken` (here `id`)
and the identifiers of its `startVertex`/`endVertex`; a face has a vertex
set and a boundary-edge list; a body owns the full edge list, from which
`BRepVertex.edges` (the edges incident to a vertex) is answered. -/

structure TEdge where
  id : Nat
  startV : Nat
  endV : Nat
deriving DecidableEq, Repr

structure TFace where
  vertexIds : List Nat
  edges : List TEdge
deriving DecidableEq, Repr

structure TBody where
  edges : List TEdge
deriving DecidableEq, Repr

/-- Edges incident to vertex `v`: the model of `startVertex.edges`. -/
def vertexEdges (body : TBody) (v : Nat) : List TEdge :=
  body.edges.filter (fun e => e.startV == v || e.endV == v)

/-- Embedding of `dbutils.getCornerEdgesAtFace` (dbutils.py:99-113).
The source picks the endpoint of `edge` that lies in `face.vertices`,
builds the dict of edges incident to that vertex and the dict of edges
bounding the face (both keyed by `hash(entityToken)`), intersects the two
key sets, raises `NameError("returnVal len != 2")` unless the intersection
has exactly two keys, and yields the corresponding face edges.  Note that
the dogbone `edge` itself is never removed from the intersection. -/
def getCornerEdgesAtFace (body : TBody) (face : TFace) (edge : TEdge) :
    Except String (List TEdge) :=
  let startVertex := if face.vertexIds.contains edge.startV then edge.startV else edge.endV
  let vertexEdgeIds := (vertexEdges body startVertex).map TEdge.id
  let faceEdgeIds := (face.edges.map TEdge.id).dedup
  let commonEdges := faceEdgeIds.filter (fun i => vertexEdgeIds.contains i)
  if commonEdges.length ≠ 2 then Except.error "returnVal len != 2"
  else Except.ok (commonEdges.filterMap (fun i => face.edges.find? (fun e => e.id == i)))

/-! Concrete topology used to exercise `getCornerEdgesAtFace` on a dogbone
edge that is itself a boundary edge of the face: a unit-square face
(vertices `0,1,2,3`, boundary edges `e01,e12,e23,e30`) together with one
extra body edge `e04` hanging off vertex `0`. -/

def e01 : TEdge := ⟨1, 0, 1⟩
def e12 : TEdge := ⟨2, 1, 2⟩
def e23 : TEdge := ⟨3, 2, 3⟩
def e30 : TEdge := ⟨4, 3, 0⟩
def e04 : TEdge := ⟨5, 0, 4⟩

def sqFace : TFace := ⟨[0, 1, 2, 3], [e01, e12, e23, e30]⟩

def sqBody : TBody := ⟨[e01, e12, e23, e30, e04]⟩

/-- C1: on a dogbone edge that bounds the stated face, the corner resolver
does not remove the dogbone edge from the vertex-set/face-set intersection:
it succeeds with two edges one of which is the dogbone edge itself, where
the claim (and the function's own docstring) require the dogbone edge to be
removed, leaving one edge, hence a topology error. -/
theorem getCornerEdgesAtFace_keeps_dogbone_edge :
    getCornerEdgesAtFace sqBody sqFace e01 = Except.ok [e01, e30] ∧
      e01 ∈ sqFace.edges ∧ e01 ∈ [e01, e30] := by
  refine ⟨rfl, by decide, by decide⟩

/-! ## Exact geometry: points and vectors

`adsk.core.Point3D` and `adsk.core.Vector3D` are both modelled by `Vec3`
(a triple of reals).  The kernel operations used by the source are given
their textbook meaning. -/

@[ext]
structure Vec3 where
  x : ℝ
  y : ℝ
  z : ℝ

instance : Zero Vec3 := ⟨⟨0, 0, 0⟩⟩

instance : Add Vec3 := ⟨fun a b => ⟨a.x + b.x, a.y + b.y, a.z + b.z⟩⟩

instance : Sub Vec3 := ⟨fun a b => ⟨a.x - b.x, a.y - b.y, a.z - b.z⟩⟩

instance : Neg Vec3 := ⟨fun a => ⟨-a.x, -a.y, -a.z⟩⟩

instance : SMul ℝ Vec3 := ⟨fun c a => ⟨c * a.x, c * a.y, c * a.z⟩⟩

@[simp] theorem zero_x : (0 : Vec3).x = 0 := rfl

@[simp] theorem zero_y : (0 : Vec3).y = 0 := rfl

@[simp] theorem zero_z : (0 : Vec3).z = 0 := rfl

@[simp] theorem add_x (a b : Vec3) : (a + b).x = a.x + b.x := rfl

@[simp] theorem add_y (a b : Vec3) : (a + b).y = a.y + b.y := rfl

@[simp] theorem add_z (a b : Vec3) : (a + b).z = a.z + b.z := rfl

@[simp] theorem sub_x (a b : Vec3) : (a - b).x = a.x - b.x := rfl

@[simp] theorem sub_y (a b : Vec3) : (a - b).y = a.y - b.y := rfl

@[simp] theorem sub_z (a b : Vec3) : (a - b).z = a.z - b.z := rfl

@[simp] theorem smul_x (c : ℝ) (a : Vec3) : (c • a).x = c * a.x := rfl

@[simp] theorem smul_y (c : ℝ) (a : Vec3) : (c • a).y = c * a.y := rfl

@[simp] theorem smul_z (c : ℝ) (a : Vec3) : (c • a).z = c * a.z := rfl

/-- Dot product, i.e. `Vector3D.dotProduct`. -/
def dot (a b : Vec3) : ℝ := a.x * b.x + a.y * b.y + a.z * b.z

/-- Cross product, i.e. `Vector3D.crossProduct`. -/
def crossProduct (a b : Vec3) : Vec3 :=
  ⟨a.y * b.z - a.z * b.y, a.z * b.x - a.x * b.z, a.x * b.y - a.y * b.x⟩

/-- Euclidean length, i.e. `Vector3D.length`. -/
noncomputable def Vec3.norm (v : Vec3) : ℝ := Real.sqrt (dot v v)

/-- `Vector3D.angleTo`: the unsigned angle between two vectors, in `[0, π]`. -/
noncomputable def angleTo (a b : Vec3) : ℝ :=
  Real.arccos (dot a b / (Vec3.norm a * Vec3.norm b))

/-- `Vector3D.normalize`: scale to unit length. -/
noncomputable def normalize (v : Vec3) : Vec3 := (1 / Vec3.norm v) • v

/-- `Vector3D.isParallelTo`: the kernel's tolerance test, exact here.
Holds for parallel and antiparallel vectors alike. -/
def isParallelTo (a b : Vec3) : Prop := crossProduct a b = 0

/-- `Point3D.vectorTo`: the vector from `p` to `q`. -/
def vectorTo (p q : Vec3) : Vec3 := q - p

/-- `Plane.intersectWithLine` for the plane through `planeOrigin` with
normal `planeNormal` and the infinite line through `lineOrigin` with
direction `lineDir`.  (The kernel returns null when the line is parallel
to the plane; every use in the source intersects a line with a plane
whose normal is the line's own direction, so that case never arises.) -/
noncomputable def intersectWithLine (planeOrigin planeNormal lineOrigin lineDir : Vec3) : Vec3 :=
  lineOrigin + (dot planeNormal (planeOrigin - lineOrigin) / dot planeNormal lineDir) • lineDir

theorem dot_comm (a b : Vec3) : dot a b = dot b a := by
  simp only [dot]; ring

theorem dot_self_nonneg (v : Vec3) : 0 ≤ dot v v := by
  simp only [dot]; nlinarith [mul_self_nonneg v.x, mul_self_nonneg v.y, mul_self_nonneg v.z]

theorem dot_self_eq_zero {v : Vec3} : dot v v = 0 ↔ v = 0 := by
  constructor
  · intro h
    simp only [dot] at h
    have hx : v.x = 0 := by nlinarith [sq_nonneg v.x, sq_nonneg v.y, sq_nonneg v.z]
    have hy : v.y = 0 := by nlinarith [sq_nonneg v.x, sq_nonneg v.y, sq_nonneg v.z]
    have hz : v.z = 0 := by nlinarith [sq_nonneg v.x, sq_nonneg v.y, sq_nonneg v.z]
    ext <;> simp [hx, hy, hz]
  · intro h
    subst h
    simp [dot]

theorem dot_self_pos {v : Vec3} (hv : v ≠ 0) : 0 < dot v v :=
  lt_of_le_of_ne (dot_self_nonneg v) (fun h => hv (dot_self_eq_zero.mp h.symm))

theorem dot_smul_left (c : ℝ) (a b : Vec3) : dot (c • a) b = c * dot a b := by
  simp only [dot, smul_x, smul_y, smul_z]; ring

theorem dot_smul_right (c : ℝ) (a b : Vec3) : dot a (c • b) = c * dot a b := by
  simp only [dot, smul_x, smul_y, smul_z]; ring

theorem dot_add_left (a b v : Vec3) : dot (a + b) v = dot a v + dot b v := by
  simp only [dot, add_x, add_y, add_z]; ring

theorem dot_add_right (v a b : Vec3) : dot v (a + b) = dot v a + dot v b := by
  simp only [dot, add_x, add_y, add_z]; ring

/-- On the plane-through-`p0` intersected with the line-through-`p0`, the
intersection point is `p0` itself (used for the `refPoint`/`fromFacePoint`
computations of `getTopFace` and `getTranslateVectorBetweenFaces`). -/
theorem intersectWithLine_self (p0 n d : Vec3) : intersectWithLine p0 n p0 d = p0 := by
  simp only [intersectWithLine]
  ext <;> simp [dot]

/-- Closed form of the only nontrivial intersection pattern in the source:
plane through `w0` with normal `n`, line through `v0` with direction `n`. -/
theorem intersectWithLine_eq (w0 n v0 : Vec3) :
    intersectWithLine w0 n v0 n = v0 + (dot n (w0 - v0) / dot n n) • n := rfl

/-! ## Faces, co-edges and the dihedral classifier (dbutils.py:18-72) -/

/-- The `objectType` of a face's underlying surface; the classifier only
distinguishes `adsk.core.Plane` from everything else. -/
inductive SurfaceType where
  | plane : SurfaceType
  | other : SurfaceType
deriving DecidableEq, Repr

/-- A boundary face as queried by the source: vertex geometries in
iteration order (`vertices.item(0)` is the head), the evaluator normal at
`pointOnFace`, a point on the face, and the surface kind. -/
structure BFace where
  verts : List Vec3
  normal : Vec3
  pointOnFace : Vec3
  surfaceType : SurfaceType

/-- `dbutils.getFaceNormal` (dbutils.py:139-140): the evaluator normal. -/
def getFaceNormal (f : BFace) : Vec3 := f.normal

/-- The two data of a co-edge the classifier reads: whether its loop
belongs to the edge's first face, and `isOpposedToEdge`. -/
structure CoEdgeData where
  loopOnFace1 : Bool
  isOpposedToEdge : Bool

/-- An edge as read by `getAngleBetweenFaces`: endpoint geometries, the
two adjacent faces (in `edge.faces` order) and the two co-edges. -/
structure DEdge where
  startGeom : Vec3
  endGeom : Vec3
  face1 : BFace
  face2 : BFace
  coEdge1 : CoEdgeData
  coEdge2 : CoEdgeData

/-- `dbutils.getEdgeVector` (dbutils.py:123-136) without a reference face:
the edge parameter vector, flipped when `reverse` is set. -/
def getEdgeVector (e : DEdge) (reverse : Bool) : Vec3 :=
  if reverse then vectorTo e.endGeom e.startGeom else vectorTo e.startGeom e.endGeom

open Classical in
/-- Embedding of `dbutils.getAngleBetweenFaces` (dbutils.py:18-72).
Returns `0` unless both adjacent faces are planar; otherwise takes the
unsigned angle between the two evaluator normals, picks the co-edge whose
loop lies on the first face, orients the edge vector by it, crosses the
second normal with the first, and returns `2π − (π − normalAngle)` when
that cross product makes an angle exceeding `π/2` with the edge vector,
else `π − normalAngle`.  (The source's `if not face1 or not face2` null
guard is vacuous here: the model always carries both faces.) -/
noncomputable def getAngleBetweenFaces (e : DEdge) : ℝ :=
  if e.face1.surfaceType ≠ SurfaceType.plane ∨ e.face2.surfaceType ≠ SurfaceType.plane then 0
  else
    let normal1 := getFaceNormal e.face1
    let normal2 := getFaceNormal e.face2
    let normalAngle := angleTo normal1 normal2
    let coEdge := if e.coEdge1.loopOnFace1 then e.coEdge1 else e.coEdge2
    let edgeVec := getEdgeVector e coEdge.isOpposedToEdge
    let cross := crossProduct normal2 normal1
    if angleTo edgeVec cross > Real.pi / 2 then Real.pi * 2 - (Real.pi - normalAngle)
    else Real.pi - normalAngle

/-- C2: for an edge between two planar faces the classifier returns the
interior dihedral angle in the claim's form: with `normalAngle` the
unsigned angle between the two face normals, `cross` the cross product of
the second face's normal with the first face's normal, and the edge's
running direction oriented by the first face's co-edge, the result is
`2π − (π − normalAngle)` when the angle between `cross` and the running
direction exceeds `π/2`, and `π − normalAngle` otherwise. -/
theorem getAngleBetweenFaces_planar_formula (e : DEdge)
    (h1 : e.face1.surfaceType = SurfaceType.plane)
    (h2 : e.face2.surfaceType = SurfaceType.plane) :
    getAngleBetweenFaces e =
      (let normalAngle := angleTo e.face1.normal e.face2.normal
       let cross := crossProduct e.face2.normal e.face1.normal
       let runningDir :=
         getEdgeVector e (if e.coEdge1.loopOnFace1 then e.coEdge1 else e.coEdge2).isOpposedToEdge
       if Real.pi / 2 < angleTo runningDir cross then
         2 * Real.pi - (Real.pi - normalAngle)
       else Real.pi - normalAngle) := by
  simp only [getAngleBetweenFaces, getFaceNormal, h1, h2, ne_eq, not_true_eq_false,
    or_self, if_false, gt_iff_lt]
  split_ifs with hc <;> ring

/-- Witness for C2 at a concrete edge between two planar faces. -/
def planarFaceA : BFace := ⟨[⟨0, 0, 0⟩], ⟨0, 1, 0⟩, ⟨0, 0, 0⟩, SurfaceType.plane⟩

def planarFaceB : BFace := ⟨[⟨0, 0, 0⟩], ⟨1, 0, 0⟩, ⟨0, 0, 0⟩, SurfaceType.plane⟩

def edgeAB : DEdge := ⟨⟨0, 0, 0⟩, ⟨0, 0, 1⟩, planarFaceA, planarFaceB, ⟨true, false⟩, ⟨false, true⟩⟩

theorem getAngleBetweenFaces_planar_formula_witness :
    getAngleBetweenFaces edgeAB =
      (let normalAngle := angleTo edgeAB.face1.normal edgeAB.face2.normal
       let cross := crossProduct edgeAB.face2.normal edgeAB.face1.normal
       let runningDir :=
         getEdgeVector edgeAB
           (if edgeAB.coEdge1.loopOnFace1 then edgeAB.coEdge1 else edgeAB.coEdge2).isOpposedToEdge
       if Real.pi / 2 < angleTo runningDir cross then
         2 * Real.pi - (Real.pi - normalAngle)
       else Real.pi - normalAngle) :=
  getAngleBetweenFaces_planar_formula edgeAB rfl rfl

/-- C9: when either adjacent face of the edge is non-planar the classifier
returns the sentinel value `0` (and, being a total function, cannot raise). -/
theorem getAngleBetweenFaces_nonplanar_sentinel (e : DEdge)
    (h : e.face1.surfaceType ≠ SurfaceType.plane ∨ e.face2.surfaceType ≠ SurfaceType.plane) :
    getAngleBetweenFaces e = 0 := by
  simp only [getAngleBetweenFaces]
  exact if_pos h

/-- Witness for C9 at a concrete edge with a non-planar first face. -/
def roundFace : BFace := ⟨[⟨0, 0, 0⟩], ⟨0, 1, 0⟩, ⟨0, 0, 0⟩, SurfaceType.other⟩

def edgeRound : DEdge :=
  ⟨⟨0, 0, 0⟩, ⟨0, 0, 1⟩, roundFace, planarFaceB, ⟨true, false⟩, ⟨false, true⟩⟩

theorem getAngleBetweenFaces_nonplanar_sentinel_witness :
    getAngleBetweenFaces edgeRound = 0 :=
  getAngleBetweenFaces_nonplanar_sentinel edgeRound (Or.inl (by decide))

/-! ## Top-face locator and plane translator (dbutils.py:147-194) -/

/-- A body as iterated by `getTopFace`: its faces in iteration order. -/
structure PBody where
  faces : List BFace

/-- The sort key used by `sorted(faceList, key=lambda x: x[1])`. -/
def byDist (a b : BFace × ℝ) : Prop := a.2 ≤ b.2

noncomputable instance : DecidableRel byDist := fun _ _ => Classical.propDecidable _

instance : IsTotal (BFace × ℝ) byDist := ⟨fun a b => le_total a.2 b.2⟩

instance : IsTrans (BFace × ℝ) byDist := ⟨fun _ _ _ h h' => le_trans h h'⟩

open Classical in
/-- The `faceList` built by `getTopFace` (dbutils.py:157-167): every body
face whose normal is parallel to the reference normal is paired with the
signed distance from the reference point to the intersection of that
face's plane with the reference line, measured by dot product with the
normal.  Faces without a vertex are skipped (the source would fail on
`vertices.item(0)`). -/
noncomputable def parallelFaceDistances (body : PBody) (normal v0 : Vec3) :
    List (BFace × ℝ) :=
  let refPoint := intersectWithLine v0 normal v0 normal
  body.faces.filterMap (fun face =>
    if isParallelTo normal (getFaceNormal face) then
      match face.verts with
      | [] => none
      | w0 :: _ =>
          some (face, dot (vectorTo refPoint (intersectWithLine w0 normal v0 normal)) normal)
    else none)

/-- Embedding of `dbutils.getTopFace` (dbutils.py:147-176).  Python's
`sorted` is a stable ascending sort, so it coincides with
`List.insertionSort`; `sortedFaceList[-1]` is the last element of the
sorted list.  The returned reference point is the top face's
`pointOnFace` (the model carries no assembly contexts, so the
`nativeObject` branch of the source collapses to `pointOnFace`). -/
noncomputable def getTopFace (body : PBody) (selectedFace : BFace) : Option (BFace × Vec3) :=
  let normal := getFaceNormal selectedFace
  match selectedFace.verts with
  | [] => none
  | v0 :: _ =>
    match (List.insertionSort byDist (parallelFaceDistances body normal v0)).getLast? with
    | some top => some (top.1, top.1.pointOnFace)
    | none => none

open Classical in
/-- Modelled from the amended claim's words: among the candidate faces,
the one of maximum signed distance, ties resolved in favour of the face
found last in the body's face iteration order. -/
noncomputable def chooseLastMax : List (BFace × ℝ) → Option (BFace × ℝ)
  | [] => none
  | x :: t => some (t.foldl (fun b c => if b.2 ≤ c.2 then c else b) x)

open Classical in
/-- The top-face locator as described by the (amended) claim: the
maximum-signed-distance parallel face, ties to the last-found face. -/
noncomputable def specTopFace (body : PBody) (selectedFace : BFace) : Option (BFace × Vec3) :=
  match selectedFace.verts with
  | [] => none
  | v0 :: _ =>
    match chooseLastMax (parallelFaceDistances body (getFaceNormal selectedFace) v0) with
    | some top => some (top.1, top.1.pointOnFace)
    | none => none

theorem getLast?_cons_of_ne_nil {α : Type} (b : α) {t : List α} (ht : t ≠ []) :
    (b :: t).getLast? = t.getLast? := by
  cases t with
  | nil => exact absurd rfl ht
  | cons c u => exact List.getLast?_cons_cons

theorem orderedInsert_ne_nil (x : BFace × ℝ) (l : List (BFace × ℝ)) :
    List.orderedInsert byDist x l ≠ [] := by
  cases l with
  | nil => simp [List.orderedInsert]
  | cons b t =>
    simp only [List.orderedInsert]
    split <;> simp

/-- The last element of inserting `x` into an ascending-sorted list `s` is
`x` if it exceeds the previous last element, otherwise that last element. -/
theorem getLast?_orderedInsert (x : BFace × ℝ) (s : List (BFace × ℝ))
    (hs : List.Sorted byDist s) :
    (List.orderedInsert byDist x s).getLast? =
      some ((s.getLast?).elim x (fun y => if y.2 < x.2 then x else y)) := by
  induction s with
  | nil => simp [List.orderedInsert]
  | cons b l ih =>
    simp only [List.orderedInsert]
    by_cases hxb : byDist x b
    · rw [if_pos hxb]
      have hlast : (b :: l).getLast? = some ((b :: l).getLast (List.cons_ne_nil b l)) :=
        List.getLast?_eq_getLast _ _
      set y := (b :: l).getLast (List.cons_ne_nil b l) with hy
      have hymem : y ∈ b :: l := List.getLast_mem _
      have hxy : x.2 ≤ y.2 := by
        rcases List.mem_cons.mp hymem with h | h
        · rw [h]; exact hxb
        · exact le_trans hxb (List.rel_of_sorted_cons hs y h)
      rw [getLast?_cons_of_ne_nil x (List.cons_ne_nil b l), hlast]
      simp only [Option.elim_some]
      rw [if_neg (not_lt.mpr hxy)]
    · rw [if_neg hxb]
      have hbx : b.2 < x.2 := not_le.mp hxb
      cases l with
      | nil =>
        simp only [List.orderedInsert, List.getLast?_cons_cons]
        simp [if_pos hbx]
      | cons c u =>
        rw [getLast?_cons_of_ne_nil b (orderedInsert_ne_nil x (c :: u)),
          ih (List.Sorted.of_cons hs), List.getLast?_cons_cons]

/-- Folding the keep-the-later-maximum step over `t` from `x` picks the
last element of maximal key among `x :: t`. -/
theorem foldl_last_argmax (t : List (BFace × ℝ)) (x : BFace × ℝ) :
    t.foldl (fun b c => if b.2 ≤ c.2 then c else b) x =
      (chooseLastMax t).elim x (fun m => if m.2 < x.2 then x else m) := by
  induction t generalizing x with
  | nil => simp [chooseLastMax]
  | cons c t' ih =>
    simp only [List.foldl_cons, chooseLastMax, Option.elim_some]
    rw [ih (if x.2 ≤ c.2 then c else x), ih c]
    rcases h : chooseLastMax t' with _ | m
    · simp only [Option.elim_none]
      split_ifs <;> first | rfl | linarith
    · simp only [Option.elim_some]
      split_ifs <;> first | rfl | linarith

/-- The last element of the stable ascending sort is the last element of
maximal key: `sorted(faceList, key=...)[-1]` is the last-found maximum. -/
theorem getLast?_insertionSort_byDist (l : List (BFace × ℝ)) :
    (List.insertionSort byDist l).getLast? = chooseLastMax l := by
  induction l with
  | nil => rfl
  | cons x t ih =>
    simp only [List.insertionSort]
    rw [getLast?_orderedInsert x _ (List.sorted_insertionSort byDist t), ih,
      show chooseLastMax (x :: t) =
          some (t.foldl (fun b c => if b.2 ≤ c.2 then c else b) x) from rfl,
      foldl_last_argmax]

theorem crossProduct_self (v : Vec3) : crossProduct v v = 0 := by
  simp only [crossProduct]
  ext <;> simp <;> ring

open Classical in
/-- Embedding of `dbutils.getTranslateVectorBetweenFaces` (dbutils.py:178-194).
`False` (the source's failure value) becomes `none`.  The parallelism
guard is transcribed exactly as written in the source, line 182: it
compares `fromFace`'s normal with `getFaceNormal(fromFace)` — i.e. with
itself — not with `toFace`'s normal. -/
noncomputable def getTranslateVectorBetweenFaces (fromFace toFace : BFace) : Option Vec3 :=
  let normal := getFaceNormal fromFace
  if ¬ isParallelTo normal (getFaceNormal fromFace) then none
  else
    match fromFace.verts, toFace.verts with
    | v0 :: _, w0 :: _ =>
        some (vectorTo (intersectWithLine v0 normal v0 normal)
          (intersectWithLine w0 normal v0 normal))
    | _, _ => none

/-- The guard of `getTranslateVectorBetweenFaces` never fires: a vector is
always parallel to itself. -/
theorem translate_guard_vacuous (fromFace : BFace) :
    ¬ ¬ isParallelTo (getFaceNormal fromFace) (getFaceNormal fromFace) :=
  not_not_intro (crossProduct_self _)

/-- General γ-form of the translator on faces with a first vertex. -/
theorem getTranslateVectorBetweenFaces_eq (fromFace toFace : BFace)
    (v0 w0 : Vec3) (va wa : List Vec3)
    (hv : fromFace.verts = v0 :: va) (hw : toFace.verts = w0 :: wa) :
    getTranslateVectorBetweenFaces fromFace toFace =
      some ((dot fromFace.normal (w0 - v0) / dot fromFace.normal fromFace.normal)
        • fromFace.normal) := by
  simp only [getTranslateVectorBetweenFaces, getFaceNormal, hv, hw]
  rw [if_neg (show ¬ ¬ isParallelTo fromFace.normal fromFace.normal from
    not_not_intro (crossProduct_self fromFace.normal))]
  simp only [intersectWithLine_self, intersectWithLine_eq, vectorTo]
  congr 1
  ext <;> simp

/-- Concrete non-parallel pair: the plane `z = 0` and the plane `x = 1`. -/
def zFace : BFace := ⟨[⟨0, 0, 0⟩, ⟨1, 0, 0⟩, ⟨1, 1, 0⟩, ⟨0, 1, 0⟩], ⟨0, 0, 1⟩, ⟨0, 0, 0⟩,
  SurfaceType.plane⟩

def xFace : BFace := ⟨[⟨1, 0, 0⟩, ⟨1, 1, 0⟩, ⟨1, 1, 1⟩, ⟨1, 0, 1⟩], ⟨1, 0, 0⟩, ⟨1, 0, 0⟩,
  SurfaceType.plane⟩

/-- C6: the plane translator does not fail on non-parallel faces.  The
source's guard compares `fromFace`'s normal with itself, so the failure
branch is unreachable: on the perpendicular pair `zFace`, `xFace` it
returns a vector instead of the failure value. -/
theorem getTranslateVector_no_parallel_check :
    getTranslateVectorBetweenFaces zFace xFace = some 0 ∧
      ¬ isParallelTo (getFaceNormal zFace) (getFaceNormal xFace) := by
  constructor
  · rw [getTranslateVectorBetweenFaces_eq zFace xFace ⟨0, 0, 0⟩ ⟨1, 0, 0⟩ _ _ rfl rfl]
    simp only [zFace, dot]
    norm_num
    ext <;> simp
  · simp only [isParallelTo, crossProduct, getFaceNormal, zFace, xFace]
    intro hc
    have := congrArg Vec3.y hc
    norm_num at this

/-- Helper for C5: `getTopFace` agrees everywhere with the claim-side
locator (maximum signed distance, ties to the last-found face). -/
theorem getTopFace_eq_specTopFace (body : PBody) (sel : BFace) :
    getTopFace body sel = specTopFace body sel := by
  cases h : sel.verts with
  | nil => simp [getTopFace, specTopFace, h]
  | cons v0 rest => simp [getTopFace, specTopFace, h, getLast?_insertionSort_byDist]

theorem dot_sub_right (a b c : Vec3) : dot a (b - c) = dot a b - dot a c := by
  simp only [dot, sub_x, sub_y, sub_z]; ring

/-- A vector whose cross product with a nonzero vector vanishes is a
scalar multiple of it. -/
theorem exists_smul_of_crossProduct_eq_zero {n m : Vec3} (hn : n ≠ 0)
    (h : crossProduct n m = 0) : ∃ c : ℝ, m = c • n := by
  have h1 : n.y * m.z - n.z * m.y = 0 := congrArg Vec3.x h
  have h2 : n.z * m.x - n.x * m.z = 0 := congrArg Vec3.y h
  have h3 : n.x * m.y - n.y * m.x = 0 := congrArg Vec3.z h
  have hcomp : n.x ≠ 0 ∨ n.y ≠ 0 ∨ n.z ≠ 0 := by
    by_contra hc
    push_neg at hc
    exact hn (by ext <;> simp [hc.1, hc.2.1, hc.2.2])
  rcases hcomp with hx | hy | hz
  · refine ⟨m.x / n.x, ?_⟩
    ext
    · simp only [smul_x]; field_simp
    · simp only [smul_y]; field_simp; nlinarith [h3]
    · simp only [smul_z]; field_simp; nlinarith [h2]
  · refine ⟨m.y / n.y, ?_⟩
    ext
    · simp only [smul_x]; field_simp; nlinarith [h3]
    · simp only [smul_y]; field_simp
    · simp only [smul_z]; field_simp; nlinarith [h1]
  · refine ⟨m.z / n.z, ?_⟩
    ext
    · simp only [smul_x]; field_simp; nlinarith [h2]
    · simp only [smul_y]; field_simp; nlinarith [h1]
    · simp only [smul_z]; field_simp

/-- C7: for two faces with parallel nonzero normals the two translation
vectors `translateVectorBetweenFaces(A,B)` and `translateVectorBetweenFaces(B,A)`
are exact inverses, so translating any point by the first and then the
second returns the original point. -/
theorem translateVector_roundTrip (A B : BFace) (v0 w0 : Vec3) (va wa : List Vec3)
    (hA : A.verts = v0 :: va) (hB : B.verts = w0 :: wa)
    (hnA : A.normal ≠ 0) (hnB : B.normal ≠ 0)
    (hpar : isParallelTo (getFaceNormal A) (getFaceNormal B)) :
    ∃ u v, getTranslateVectorBetweenFaces A B = some u ∧
      getTranslateVectorBetweenFaces B A = some v ∧
      ∀ p : Vec3, p + u + v = p := by
  obtain ⟨c, hc⟩ := exists_smul_of_crossProduct_eq_zero hnA hpar
  simp only [getFaceNormal] at hc
  have hc0 : c ≠ 0 := by
    intro h0
    apply hnB
    rw [hc, h0]
    ext <;> simp
  have hq : dot A.normal A.normal ≠ 0 := (dot_self_pos hnA).ne'
  refine ⟨_, _, getTranslateVectorBetweenFaces_eq A B v0 w0 va wa hA hB,
    getTranslateVectorBetweenFaces_eq B A w0 v0 wa va hB hA, ?_⟩
  intro p
  rw [hc]
  have hneg : dot A.normal (v0 - w0) = -dot A.normal (w0 - v0) := by
    simp only [dot, sub_x, sub_y, sub_z]; ring
  simp only [dot_smul_left, dot_smul_right, hneg]
  ext <;> simp <;> field_simp <;> ring

/-- Witness for C7: two horizontal unit squares, one at height 2 with the
opposite normal orientation. -/
def lowFace : BFace := ⟨[⟨0, 0, 0⟩, ⟨1, 0, 0⟩, ⟨1, 1, 0⟩, ⟨0, 1, 0⟩], ⟨0, 0, 1⟩, ⟨0, 0, 0⟩,
  SurfaceType.plane⟩

def highFace : BFace := ⟨[⟨0, 0, 2⟩, ⟨1, 0, 2⟩, ⟨1, 1, 2⟩, ⟨0, 1, 2⟩], ⟨0, 0, -1⟩, ⟨0, 0, 2⟩,
  SurfaceType.plane⟩

theorem translateVector_roundTrip_witness :
    ∃ u v, getTranslateVectorBetweenFaces lowFace highFace = some u ∧
      getTranslateVectorBetweenFaces highFace lowFace = some v ∧
      ∀ p : Vec3, p + u + v = p := by
  refine translateVector_roundTrip lowFace highFace ⟨0, 0, 0⟩ ⟨0, 0, 2⟩ _ _ rfl rfl ?_ ?_ ?_
  · intro h
    have := congrArg Vec3.z h
    simp [lowFace] at this
  · intro h
    have := congrArg Vec3.z h
    simp [highFace] at this
  · show crossProduct _ _ = 0
    simp only [lowFace, highFace, getFaceNormal, crossProduct]
    ext <;> norm_num

theorem vectorTo_self (p : Vec3) : vectorTo p p = 0 := by
  simp only [vectorTo]
  ext <;> simp

theorem parallelFaceDistances_nil (normal v0 : Vec3) :
    parallelFaceDistances ⟨[]⟩ normal v0 = [] := rfl

theorem parallelFaceDistances_cons_pos (faces : List BFace) (face : BFace)
    (normal v0 w0 : Vec3) (rest : List Vec3)
    (hp : isParallelTo normal (getFaceNormal face)) (hw : face.verts = w0 :: rest) :
    parallelFaceDistances ⟨face :: faces⟩ normal v0 =
      (face, dot (vectorTo v0 (intersectWithLine w0 normal v0 normal)) normal) ::
        parallelFaceDistances ⟨faces⟩ normal v0 := by
  simp only [parallelFaceDistances, List.filterMap_cons, intersectWithLine_self]
  rw [if_pos hp, hw]

theorem parallelFaceDistances_cons_neg (faces : List BFace) (face : BFace)
    (normal v0 : Vec3) (hp : ¬ isParallelTo normal (getFaceNormal face)) :
    parallelFaceDistances ⟨face :: faces⟩ normal v0 =
      parallelFaceDistances ⟨faces⟩ normal v0 := by
  simp only [parallelFaceDistances, List.filterMap_cons, intersectWithLine_self]
  rw [if_neg hp]

/-! Concrete rectangular prism with unit-square base and height `h`,
z-axis aligned.  The reference face is the bottom face at `z = 0`; its
evaluated normal points toward the top of the prism (the direction the
dogbone holes are specified along in the add-in's workflow). -/

def prismBottom : BFace := ⟨[⟨0, 0, 0⟩, ⟨1, 0, 0⟩, ⟨1, 1, 0⟩, ⟨0, 1, 0⟩], ⟨0, 0, 1⟩,
  ⟨0, 0, 0⟩, SurfaceType.plane⟩

def prismTop (h : ℝ) : BFace := ⟨[⟨0, 0, h⟩, ⟨1, 0, h⟩, ⟨1, 1, h⟩, ⟨0, 1, h⟩], ⟨0, 0, 1⟩,
  ⟨0, 0, h⟩, SurfaceType.plane⟩

def prismSideE (h : ℝ) : BFace := ⟨[⟨1, 0, 0⟩, ⟨1, 1, 0⟩, ⟨1, 1, h⟩, ⟨1, 0, h⟩], ⟨1, 0, 0⟩,
  ⟨1, 0, 0⟩, SurfaceType.plane⟩

def prismSideW (h : ℝ) : BFace := ⟨[⟨0, 0, 0⟩, ⟨0, 1, 0⟩, ⟨0, 1, h⟩, ⟨0, 0, h⟩], ⟨-1, 0, 0⟩,
  ⟨0, 0, 0⟩, SurfaceType.plane⟩

def prismSideN (h : ℝ) : BFace := ⟨[⟨0, 1, 0⟩, ⟨1, 1, 0⟩, ⟨1, 1, h⟩, ⟨0, 1, h⟩], ⟨0, 1, 0⟩,
  ⟨0, 1, 0⟩, SurfaceType.plane⟩

def prismSideS (h : ℝ) : BFace := ⟨[⟨0, 0, 0⟩, ⟨1, 0, 0⟩, ⟨1, 0, h⟩, ⟨0, 0, h⟩], ⟨0, -1, 0⟩,
  ⟨0, 0, 0⟩, SurfaceType.plane⟩

def prismBody (h : ℝ) : PBody :=
  ⟨[prismBottom, prismSideE h, prismSideW h, prismSideN h, prismSideS h, prismTop h]⟩

theorem prism_faceList (h : ℝ) :
    parallelFaceDistances (prismBody h) ⟨0, 0, 1⟩ ⟨0, 0, 0⟩ =
      [(prismBottom, 0), (prismTop h, h)] := by
  rw [show prismBody h =
      ⟨[prismBottom, prismSideE h, prismSideW h, prismSideN h, prismSideS h, prismTop h]⟩
    from rfl]
  rw [parallelFaceDistances_cons_pos _ _ _ _ ⟨0, 0, 0⟩ _
    (by simp [isParallelTo, crossProduct, prismBottom, getFaceNormal]; ext <;> norm_num) rfl]
  rw [parallelFaceDistances_cons_neg _ _ _ _
    (by simp only [isParallelTo, crossProduct, prismSideE, getFaceNormal]
        intro hcon
        have := congrArg Vec3.y hcon
        norm_num at this)]
  rw [parallelFaceDistances_cons_neg _ _ _ _
    (by simp only [isParallelTo, crossProduct, prismSideW, getFaceNormal]
        intro hcon
        have := congrArg Vec3.y hcon
        norm_num at this)]
  rw [parallelFaceDistances_cons_neg _ _ _ _
    (by simp only [isParallelTo, crossProduct, prismSideN, getFaceNormal]
        intro hcon
        have := congrArg Vec3.x hcon
        norm_num at this)]
  rw [parallelFaceDistances_cons_neg _ _ _ _
    (by simp only [isParallelTo, crossProduct, prismSideS, getFaceNormal]
        intro hcon
        have := congrArg Vec3.x hcon
        norm_num at this)]
  rw [parallelFaceDistances_cons_pos _ _ _ _ ⟨0, 0, h⟩ _
    (by simp [isParallelTo, crossProduct, prismTop, getFaceNormal]; ext <;> norm_num) rfl]
  rw [parallelFaceDistances_nil]
  rw [intersectWithLine_self, vectorTo_self]
  have hd0 : dot (0 : Vec3) ⟨0, 0, 1⟩ = 0 := by simp [dot]
  have htop : intersectWithLine ⟨0, 0, h⟩ ⟨0, 0, 1⟩ ⟨0, 0, 0⟩ ⟨0, 0, 1⟩ = ⟨0, 0, h⟩ := by
    simp only [intersectWithLine, dot]
    ext <;> simp
  rw [hd0, htop]
  have hdh : dot (vectorTo ⟨0, 0, 0⟩ ⟨0, 0, h⟩) ⟨0, 0, 1⟩ = h := by
    simp [vectorTo, dot]
  rw [hdh]

/-- The claim-side chooser really picks a maximum: its result is a member
of the candidate list and its key bounds every candidate's key. -/
theorem chooseLastMax_is_max (l : List (BFace × ℝ)) (m : BFace × ℝ)
    (h : chooseLastMax l = some m) : m ∈ l ∧ ∀ y ∈ l, y.2 ≤ m.2 := by
  induction l generalizing m with
  | nil => exact absurd h (by simp [chooseLastMax])
  | cons x t ih =>
    have hm : m = (chooseLastMax t).elim x (fun k => if k.2 < x.2 then x else k) := by
      have := h
      rw [show chooseLastMax (x :: t) =
          some (t.foldl (fun b c => if b.2 ≤ c.2 then c else b) x) from rfl,
        foldl_last_argmax] at this
      exact (Option.some_inj.mp this).symm
    rcases hc : chooseLastMax t with _ | k
    · have ht : t = [] := by
        cases t with
        | nil => rfl
        | cons a b => exact absurd hc (by simp [chooseLastMax])
      subst ht
      rw [hc] at hm
      simp only [Option.elim_none] at hm
      subst hm
      exact ⟨List.mem_singleton_self m, by intro y hy; rw [List.mem_singleton.mp hy]⟩
    · obtain ⟨hkmem, hkmax⟩ := ih k hc
      rw [hc] at hm
      simp only [Option.elim_some] at hm
      by_cases hlt : k.2 < x.2
      · rw [if_pos hlt] at hm
        subst hm
        refine ⟨List.mem_cons_self m t, ?_⟩
        intro y hy
        rcases List.mem_cons.mp hy with h | h
        · rw [h]
        · exact le_trans (hkmax y h) hlt.le
      · rw [if_neg hlt] at hm
        subst hm
        refine ⟨List.mem_cons_of_mem x hkmem, ?_⟩
        intro y hy
        rcases List.mem_cons.mp hy with h | h
        · rw [h]; exact not_lt.mp hlt
        · exact hkmax y h

theorem getTopFace_eval (body : PBody) (sel : BFace) (v0 : Vec3) (rest : List Vec3)
    (hv : sel.verts = v0 :: rest) :
    getTopFace body sel =
      (match (List.insertionSort byDist
          (parallelFaceDistances body (getFaceNormal sel) v0)).getLast? with
        | some top => some (top.1, top.1.pointOnFace)
        | none => none) := by
  simp only [getTopFace, hv]

/-- C5 (amended): the top-face locator returns, among the body's faces
with parallel normals, the face of maximum signed distance along the
normal, ties resolved in favour of the last-found face (`specTopFace`,
whose chooser provably selects a maximal element); and on a rectangular
prism of height `h` whose reference face is the bottom, it returns the
top face, and the translation vector to it has length `h` and is
directed along the shared normal. -/
theorem getTopFace_maxDistance_lastTie_and_prism :
    (∀ (body : PBody) (sel : BFace), getTopFace body sel = specTopFace body sel) ∧
    (∀ (l : List (BFace × ℝ)) (m : BFace × ℝ), chooseLastMax l = some m →
      m ∈ l ∧ ∀ y ∈ l, y.2 ≤ m.2) ∧
    (∀ h : ℝ, 0 < h →
      getTopFace (prismBody h) prismBottom = some (prismTop h, ⟨0, 0, h⟩) ∧
      getTranslateVectorBetweenFaces prismBottom (prismTop h) = some ⟨0, 0, h⟩ ∧
      Vec3.norm ⟨0, 0, h⟩ = h ∧
      (⟨0, 0, h⟩ : Vec3) = h • getFaceNormal prismBottom) := by
  refine ⟨getTopFace_eq_specTopFace, chooseLastMax_is_max, ?_⟩
  intro h hh
  refine ⟨?_, ?_, ?_, ?_⟩
  · rw [getTopFace_eval (prismBody h) prismBottom ⟨0, 0, 0⟩ _ rfl,
      show getFaceNormal prismBottom = ⟨0, 0, 1⟩ from rfl, prism_faceList h]
    simp only [List.insertionSort, List.orderedInsert]
    rw [if_pos (show byDist (prismBottom, 0) (prismTop h, h) from le_of_lt hh)]
    rfl
  · rw [getTranslateVectorBetweenFaces_eq prismBottom (prismTop h) ⟨0, 0, 0⟩ ⟨0, 0, h⟩
      _ _ rfl rfl]
    have : dot (⟨0, 0, 1⟩ : Vec3) ((⟨0, 0, h⟩ : Vec3) - ⟨0, 0, 0⟩) = h := by
      simp [dot]
    rw [show prismBottom.normal = ⟨0, 0, 1⟩ from rfl, this,
      show dot (⟨0, 0, 1⟩ : Vec3) ⟨0, 0, 1⟩ = 1 from by simp [dot]]
    congr 1
    ext <;> simp
  · simp only [Vec3.norm, dot]
    rw [show (0 : ℝ) * 0 + 0 * 0 + h * h = h * h by ring]
    exact Real.sqrt_mul_self hh.le
  · rw [show getFaceNormal prismBottom = ⟨0, 0, 1⟩ from rfl]
    ext <;> simp

/-- Witness for C5 at prism height `1`. -/
theorem getTopFace_maxDistance_lastTie_and_prism_witness :
    getTopFace (prismBody 1) prismBottom = some (prismTop 1, ⟨0, 0, 1⟩) ∧
      getTranslateVectorBetweenFaces prismBottom (prismTop 1) = some ⟨0, 0, 1⟩ :=
  ⟨(getTopFace_maxDistance_lastTie_and_prism.2.2 1 one_pos).1,
    (getTopFace_maxDistance_lastTie_and_prism.2.2 1 one_pos).2.1⟩

/-! Counterexample body for the tie-break direction: two distinct faces in
the same plane `z = 1`, both parallel to the reference face at `z = 0`,
`tieFace1` found before `tieFace2` in the body's face iteration order. -/

def tieSel : BFace := ⟨[⟨0, 0, 0⟩], ⟨0, 0, 1⟩, ⟨0, 0, 0⟩, SurfaceType.plane⟩

def tieFace1 : BFace := ⟨[⟨0, 0, 1⟩], ⟨0, 0, 1⟩, ⟨3, 3, 1⟩, SurfaceType.plane⟩

def tieFace2 : BFace := ⟨[⟨5, 5, 1⟩], ⟨0, 0, 1⟩, ⟨9, 9, 1⟩, SurfaceType.plane⟩

def tieBody : PBody := ⟨[tieSel, tieFace1, tieFace2]⟩

theorem tie_faceList :
    parallelFaceDistances tieBody ⟨0, 0, 1⟩ ⟨0, 0, 0⟩ =
      [(tieSel, 0), (tieFace1, 1), (tieFace2, 1)] := by
  rw [show tieBody = ⟨[tieSel, tieFace1, tieFace2]⟩ from rfl]
  rw [parallelFaceDistances_cons_pos _ _ _ _ ⟨0, 0, 0⟩ _
    (by simp [isParallelTo, crossProduct, tieSel, getFaceNormal]; ext <;> norm_num) rfl]
  rw [parallelFaceDistances_cons_pos _ _ _ _ ⟨0, 0, 1⟩ _
    (by simp [isParallelTo, crossProduct, tieFace1, getFaceNormal]; ext <;> norm_num) rfl]
  rw [parallelFaceDistances_cons_pos _ _ _ _ ⟨5, 5, 1⟩ _
    (by simp [isParallelTo, crossProduct, tieFace2, getFaceNormal]; ext <;> norm_num) rfl]
  rw [parallelFaceDistances_nil, intersectWithLine_self, vectorTo_self]
  have h1 : intersectWithLine ⟨0, 0, 1⟩ ⟨0, 0, 1⟩ ⟨0, 0, 0⟩ ⟨0, 0, 1⟩ = ⟨0, 0, 1⟩ := by
    simp only [intersectWithLine, dot]
    ext <;> simp
  have h2 : intersectWithLine ⟨5, 5, 1⟩ ⟨0, 0, 1⟩ ⟨0, 0, 0⟩ ⟨0, 0, 1⟩ = ⟨0, 0, 1⟩ := by
    simp only [intersectWithLine, dot]
    ext <;> norm_num
  rw [h1, h2]
  have hd0 : dot (0 : Vec3) ⟨0, 0, 1⟩ = 0 := by simp [dot]
  have hd1 : dot (vectorTo ⟨0, 0, 0⟩ ⟨0, 0, 1⟩) ⟨0, 0, 1⟩ = 1 := by
    simp [vectorTo, dot]
  rw [hd0, hd1]

/-- C5 counterexample: with two equally distant parallel faces, the
locator returns the face found last in the body's iteration order
(`tieFace2`), not the first-found face (`tieFace1`) stated by the claim;
both candidate faces have the same computed signed distance `1`. -/
theorem getTopFace_tie_not_first_found :
    getTopFace tieBody tieSel = some (tieFace2, ⟨9, 9, 1⟩) ∧
      tieFace1 ≠ tieFace2 ∧
      parallelFaceDistances tieBody (getFaceNormal tieSel) ⟨0, 0, 0⟩ =
        [(tieSel, 0), (tieFace1, 1), (tieFace2, 1)] := by
  have hfl := tie_faceList
  refine ⟨?_, ?_, hfl⟩
  · rw [getTopFace_eval tieBody tieSel ⟨0, 0, 0⟩ _ rfl,
      show getFaceNormal tieSel = ⟨0, 0, 1⟩ from rfl, hfl]
    simp only [List.insertionSort, List.orderedInsert]
    rw [if_pos (show byDist (tieFace1, 1) (tieFace2, 1) from le_refl 1)]
    simp only [List.orderedInsert]
    rw [if_pos (show byDist (tieSel, 0) (tieFace1, 1) from zero_le_one)]
    rfl
  · intro hcon
    have := congrArg (fun f => f.pointOnFace.x) hcon
    simp [tieFace1, tieFace2] at this

/-! ## Placement engine (Dogbone.py: onExecute 551-552, createParametricDogbones
700-826, createStaticDogbones 875-980)

The per-corner inputs are the two corner edges returned by the resolver
(straight edges, given by their endpoint geometries), the corner vertex
geometry, the dogbone style, the mortise side flag, the tool radius and
the minimal percentage. -/

/-- A straight corner edge: its endpoint geometries.  `BRepEdge.length`
is the geometric length; for the straight edges at a corner that is the
distance between the endpoints. -/
structure GEdge where
  startGeom : Vec3
  endGeom : Vec3

noncomputable def GEdge.length (e : GEdge) : ℝ := Vec3.norm (vectorTo e.startGeom e.endGeom)

open Classical in
/-- Embedding of `dbutils.correctedEdgeVector` (dbutils.py:83-88): the
edge vector oriented to point away from `commonPoint`. -/
noncomputable def correctedEdgeVector (e : GEdge) (commonPoint : Vec3) : Vec3 :=
  if e.startGeom = commonPoint then vectorTo e.startGeom e.endGeom
  else vectorTo e.endGeom e.startGeom

/-- The closed dogbone-style enumeration behind the source's
`'Normal Dogbone'` / `'Minimal Dogbone'` / `'Mortise Dogbone'` strings. -/
inductive DbType where
  | normalDogbone : DbType
  | minimalDogbone : DbType
  | mortiseDogbone : DbType
deriving DecidableEq, Repr

/-- The hole offset of Dogbone.py:536/540/552: `radius/√2·(1+minPercent/100)`
for Minimal, `radius` for Mortise, `radius/√2` for Normal (this is both the
`dbHoleOffset` user parameter of the parametric path and `self.offset` of
the static path). -/
noncomputable def dbHoleOffset (t : DbType) (radius minimalPercent : ℝ) : ℝ :=
  match t with
  | DbType.minimalDogbone => radius / Real.sqrt 2 * (1 + minimalPercent / 100)
  | DbType.mortiseDogbone => radius
  | DbType.normalDogbone => radius / Real.sqrt 2

/-- `centreDistance` of Dogbone.py:709/879:
`radius*(1+minimalPercent/100 if Minimal else 1)`. -/
noncomputable def centreDistance (t : DbType) (radius minimalPercent : ℝ) : ℝ :=
  radius * (if t = DbType.minimalDogbone then 1 + minimalPercent / 100 else 1)

/-- Embedding of the Mortise branch of `createParametricDogbones`
(Dogbone.py:800-821): picks the alignment direction (`dirVect`) and the
two per-edge hole offsets.  The result is `(dirVect, edge1Offset,
edge2Offset)`; the source's `createByReal(0)` is the clearance `0` and
`offsetByStr` is the `dbHoleOffset` value. -/
noncomputable def mortiseDirAndOffsets (longSide : Bool) (edge1 edge2 : GEdge)
    (startVertex : Vec3) (offsetByStr : ℝ) : Vec3 × ℝ × ℝ :=
  let direction0 := correctedEdgeVector edge1 startVertex
  let direction1 := correctedEdgeVector edge2 startVertex
  if longSide then
    if edge1.length > edge2.length then (direction0, 0, offsetByStr)
    else (direction1, offsetByStr, 0)
  else
    if edge1.length > edge2.length then (direction1, offsetByStr, 0)
    else (direction0, 0, offsetByStr)

/-- The per-edge hole offsets of `createParametricDogbones`
(Dogbone.py:800-826): the Mortise branch assigns them via
`mortiseDirAndOffsets`; every other style assigns `offsetByStr` to both
edges. -/
noncomputable def edgeOffsets (t : DbType) (longSide : Bool) (edge1 edge2 : GEdge)
    (startVertex : Vec3) (offsetByStr : ℝ) : ℝ × ℝ :=
  if t = DbType.mortiseDogbone then
    (mortiseDirAndOffsets longSide edge1 edge2 startVertex offsetByStr).2
  else (offsetByStr, offsetByStr)

/-- Embedding of the Mortise branch of `createStaticDogbones`
(Dogbone.py:964-974): same edge selection, but the direction vector is
normalised before being scaled by `centreDistance`. -/
noncomputable def staticMortiseDirVect (longSide : Bool) (edge0 edge1 : GEdge)
    (startVertex : Vec3) : Vec3 :=
  let direction0 := correctedEdgeVector edge0 startVertex
  let direction1 := correctedEdgeVector edge1 startVertex
  normalize (if longSide then
      (if edge0.length > edge1.length then direction0 else direction1)
    else
      (if edge0.length > edge1.length then direction1 else direction0))

/-- The values a placement passes onward to hole creation: the centre
point and the two per-edge clearances. -/
structure PlacementResult where
  centerPoint : Vec3
  edge1Clearance : ℝ
  edge2Clearance : ℝ

theorem PlacementResult.mk_eq (c c' : Vec3) (a a' b b' : ℝ) (hc : c = c') (ha : a = a')
    (hb : b = b') : PlacementResult.mk c a b = PlacementResult.mk c' a' b' := by
  rw [hc, ha, hb]

/-- One placement, following the static path of the source
(Dogbone.py:955-980) for the centre point and the parametric path's
per-edge offsets (Dogbone.py:800-826) for the clearances.  `cornerVector`
is the `DbEdge.cornerVector` direction used by the non-Mortise styles; it
is computed in a source file outside this tree, so it is taken here as an
input (it does not depend on the style). -/
noncomputable def computePlacement (t : DbType) (longSide : Bool) (edge0 edge1 : GEdge)
    (startVertex cornerVector : Vec3) (radius minimalPercent : ℝ) : PlacementResult :=
  let dirVect :=
    if t = DbType.mortiseDogbone then staticMortiseDirVect longSide edge0 edge1 startVertex
    else cornerVector
  let offsets := edgeOffsets t longSide edge0 edge1 startVertex (dbHoleOffset t radius minimalPercent)
  ⟨startVertex + centreDistance t radius minimalPercent • dirVect, offsets.1, offsets.2⟩

theorem dbHoleOffset_nonneg (t : DbType) (r p : ℝ) (hr : 0 ≤ r) (hp : 0 ≤ p) :
    0 ≤ dbHoleOffset t r p := by
  have hs : (0 : ℝ) ≤ r / Real.sqrt 2 := div_nonneg hr (Real.sqrt_nonneg 2)
  cases t with
  | normalDogbone => exact hs
  | minimalDogbone =>
    exact mul_nonneg hs (by positivity)
  | mortiseDogbone => exact hr

/-- C3: placement clearances are non-negative; Normal and Minimal assign
the same clearance to both edges; Mortise assigns zero to exactly one
edge and the full offset to the other, the zero going to the longer edge
under Long-side selection and to the shorter edge under Short-side
selection. -/
theorem edgeOffsets_clearance_invariant (t : DbType) (longSide : Bool) (e1 e2 : GEdge)
    (V : Vec3) (r p : ℝ) (hr : 0 < r) (hp : 0 ≤ p) :
    (0 ≤ (edgeOffsets t longSide e1 e2 V (dbHoleOffset t r p)).1 ∧
      0 ≤ (edgeOffsets t longSide e1 e2 V (dbHoleOffset t r p)).2) ∧
    ((t = DbType.normalDogbone ∨ t = DbType.minimalDogbone) →
      (edgeOffsets t longSide e1 e2 V (dbHoleOffset t r p)).1 =
        (edgeOffsets t longSide e1 e2 V (dbHoleOffset t r p)).2) ∧
    (t = DbType.mortiseDogbone →
      (((edgeOffsets t longSide e1 e2 V (dbHoleOffset t r p)).1 = 0 ∧
          (edgeOffsets t longSide e1 e2 V (dbHoleOffset t r p)).2 = dbHoleOffset t r p ∧
          dbHoleOffset t r p ≠ 0) ∨
        ((edgeOffsets t longSide e1 e2 V (dbHoleOffset t r p)).2 = 0 ∧
          (edgeOffsets t longSide e1 e2 V (dbHoleOffset t r p)).1 = dbHoleOffset t r p ∧
          dbHoleOffset t r p ≠ 0)) ∧
      (longSide = true → e2.length < e1.length →
        edgeOffsets t longSide e1 e2 V (dbHoleOffset t r p) = (0, dbHoleOffset t r p)) ∧
      (longSide = true → e1.length < e2.length →
        edgeOffsets t longSide e1 e2 V (dbHoleOffset t r p) = (dbHoleOffset t r p, 0)) ∧
      (longSide = false → e2.length < e1.length →
        edgeOffsets t longSide e1 e2 V (dbHoleOffset t r p) = (dbHoleOffset t r p, 0)) ∧
      (longSide = false → e1.length < e2.length →
        edgeOffsets t longSide e1 e2 V (dbHoleOffset t r p) = (0, dbHoleOffset t r p))) := by
  have hoff : 0 ≤ dbHoleOffset t r p := dbHoleOffset_nonneg t r p hr.le hp
  cases t with
  | normalDogbone =>
    refine ⟨⟨hoff, hoff⟩, fun _ => rfl, fun hcon => by cases hcon⟩
  | minimalDogbone =>
    refine ⟨⟨hoff, hoff⟩, fun _ => rfl, fun hcon => by cases hcon⟩
  | mortiseDogbone =>
    have hne : dbHoleOffset DbType.mortiseDogbone r p ≠ 0 := hr.ne'
    cases longSide with
    | true =>
      by_cases hgt : e1.length > e2.length
      · have hval : edgeOffsets DbType.mortiseDogbone true e1 e2 V
            (dbHoleOffset DbType.mortiseDogbone r p) =
              (0, dbHoleOffset DbType.mortiseDogbone r p) := by
          simp [edgeOffsets, mortiseDirAndOffsets, hgt]
        rw [hval]
        refine ⟨⟨le_refl 0, hoff⟩,
          fun hcon => by rcases hcon with h | h <;> exact absurd h (by decide),
          fun _ => ⟨Or.inl ⟨rfl, rfl, hne⟩, fun _ _ => rfl,
            fun _ hlt => absurd hlt (not_lt.mpr hgt.le),
            fun hf => absurd hf (by decide), fun hf => absurd hf (by decide)⟩⟩
      · have hval : edgeOffsets DbType.mortiseDogbone true e1 e2 V
            (dbHoleOffset DbType.mortiseDogbone r p) =
              (dbHoleOffset DbType.mortiseDogbone r p, 0) := by
          simp [edgeOffsets, mortiseDirAndOffsets, hgt]
        rw [hval]
        refine ⟨⟨hoff, le_refl 0⟩,
          fun hcon => by rcases hcon with h | h <;> exact absurd h (by decide),
          fun _ => ⟨Or.inr ⟨rfl, rfl, hne⟩,
            fun _ hlt => absurd hlt hgt, fun _ _ => rfl,
            fun hf => absurd hf (by decide), fun hf => absurd hf (by decide)⟩⟩
    | false =>
      by_cases hgt : e1.length > e2.length
      · have hval : edgeOffsets DbType.mortiseDogbone false e1 e2 V
            (dbHoleOffset DbType.mortiseDogbone r p) =
              (dbHoleOffset DbType.mortiseDogbone r p, 0) := by
          simp [edgeOffsets, mortiseDirAndOffsets, hgt]
        rw [hval]
        refine ⟨⟨hoff, le_refl 0⟩,
          fun hcon => by rcases hcon with h | h <;> exact absurd h (by decide),
          fun _ => ⟨Or.inr ⟨rfl, rfl, hne⟩,
            fun hf => absurd hf (by decide), fun hf => absurd hf (by decide),
            fun _ _ => rfl, fun _ hlt => absurd hlt (not_lt.mpr hgt.le)⟩⟩
      · have hval : edgeOffsets DbType.mortiseDogbone false e1 e2 V
            (dbHoleOffset DbType.mortiseDogbone r p) =
              (0, dbHoleOffset DbType.mortiseDogbone r p) := by
          simp [edgeOffsets, mortiseDirAndOffsets, hgt]
        rw [hval]
        refine ⟨⟨le_refl 0, hoff⟩,
          fun hcon => by rcases hcon with h | h <;> exact absurd h (by decide),
          fun _ => ⟨Or.inl ⟨rfl, rfl, hne⟩,
            fun hf => absurd hf (by decide), fun hf => absurd hf (by decide),
            fun _ hlt => absurd hlt hgt, fun _ _ => rfl⟩⟩

/-- Concrete corner edges of lengths 10 and 4, joined at the origin. -/
def longEdge : GEdge := ⟨⟨0, 0, 0⟩, ⟨10, 0, 0⟩⟩

def shortEdge : GEdge := ⟨⟨0, 0, 0⟩, ⟨0, 4, 0⟩⟩

theorem longEdge_length : longEdge.length = 10 := by
  simp only [GEdge.length, longEdge, vectorTo, Vec3.norm, dot, sub_x, sub_y, sub_z]
  rw [show ((10 : ℝ) - 0) * (10 - 0) + (0 - 0) * (0 - 0) + (0 - 0) * (0 - 0) = 10 * 10
    by ring]
  exact Real.sqrt_mul_self (by norm_num)

theorem shortEdge_length : shortEdge.length = 4 := by
  simp only [GEdge.length, shortEdge, vectorTo, Vec3.norm, dot, sub_x, sub_y, sub_z]
  rw [show ((0 : ℝ) - 0) * (0 - 0) + (4 - 0) * (4 - 0) + (0 - 0) * (0 - 0) = 4 * 4
    by ring]
  exact Real.sqrt_mul_self (by norm_num)

/-- Witness for C3: Mortise, Long side, edge lengths 10 and 4, tool
radius 1: the longer edge gets clearance 0 and the shorter edge the full
offset. -/
theorem edgeOffsets_clearance_invariant_witness :
    edgeOffsets DbType.mortiseDogbone true longEdge shortEdge ⟨0, 0, 0⟩
        (dbHoleOffset DbType.mortiseDogbone 1 0) =
      (0, dbHoleOffset DbType.mortiseDogbone 1 0) ∧
    edgeOffsets DbType.mortiseDogbone false longEdge shortEdge ⟨0, 0, 0⟩
        (dbHoleOffset DbType.mortiseDogbone 1 0) =
      (dbHoleOffset DbType.mortiseDogbone 1 0, 0) := by
  have h4lt10 : shortEdge.length < longEdge.length := by
    rw [shortEdge_length, longEdge_length]; norm_num
  exact ⟨((edgeOffsets_clearance_invariant DbType.mortiseDogbone true longEdge shortEdge
      ⟨0, 0, 0⟩ 1 0 one_pos (le_refl 0)).2.2 rfl).2.1 rfl h4lt10,
    ((edgeOffsets_clearance_invariant DbType.mortiseDogbone false longEdge shortEdge
      ⟨0, 0, 0⟩ 1 0 one_pos (le_refl 0)).2.2 rfl).2.2.2.1 rfl h4lt10⟩

/-- C10: with exactly equal corner-edge lengths the Mortise selection is
deterministic, because it is a single strict `>` comparison: under Long
side the second corner edge supplies the alignment direction and gets the
zero clearance (the same outcome as when it is strictly longer, also
stated), and under Short side the first corner edge does, in both the
parametric and the static path. -/
theorem mortise_equal_lengths_deterministic (e1 e2 : GEdge) (V : Vec3) (off : ℝ) :
    (e1.length = e2.length →
      mortiseDirAndOffsets true e1 e2 V off = (correctedEdgeVector e2 V, off, 0) ∧
      mortiseDirAndOffsets false e1 e2 V off = (correctedEdgeVector e1 V, 0, off) ∧
      staticMortiseDirVect true e1 e2 V = normalize (correctedEdgeVector e2 V) ∧
      staticMortiseDirVect false e1 e2 V = normalize (correctedEdgeVector e1 V)) ∧
    (e1.length < e2.length →
      mortiseDirAndOffsets true e1 e2 V off = (correctedEdgeVector e2 V, off, 0) ∧
      staticMortiseDirVect true e1 e2 V = normalize (correctedEdgeVector e2 V)) := by
  constructor
  · intro heq
    have hngt : ¬ e1.length > e2.length := not_lt.mpr heq.le
    exact ⟨by simp [mortiseDirAndOffsets, hngt], by simp [mortiseDirAndOffsets, hngt],
      by simp [staticMortiseDirVect, hngt], by simp [staticMortiseDirVect, hngt]⟩
  · intro hlt
    have hngt : ¬ e1.length > e2.length := not_lt.mpr hlt.le
    exact ⟨by simp [mortiseDirAndOffsets, hngt], by simp [staticMortiseDirVect, hngt]⟩

/-- Witness for C10 with two edges of (trivially) equal length. -/
def unitEdgeX : GEdge := ⟨⟨0, 0, 0⟩, ⟨1, 0, 0⟩⟩

theorem mortise_equal_lengths_deterministic_witness :
    mortiseDirAndOffsets true unitEdgeX unitEdgeX ⟨0, 0, 0⟩ 7 =
      (correctedEdgeVector unitEdgeX ⟨0, 0, 0⟩, 7, 0) ∧
    mortiseDirAndOffsets false unitEdgeX unitEdgeX ⟨0, 0, 0⟩ 7 =
      (correctedEdgeVector unitEdgeX ⟨0, 0, 0⟩, 0, 7) :=
  ⟨((mortise_equal_lengths_deterministic unitEdgeX unitEdgeX ⟨0, 0, 0⟩ 7).1 rfl).1,
    ((mortise_equal_lengths_deterministic unitEdgeX unitEdgeX ⟨0, 0, 0⟩ 7).1 rfl).2.1⟩

/-- C8: Minimal style with `minimalPercentage = 0` produces the identical
placement to Normal style: the same centre point and the same per-edge
clearances, because both the centre distance and the hole offset reduce
to their Normal values. -/
theorem minimal_zero_percent_eq_normal (longSide : Bool) (e0 e1 : GEdge)
    (V cv : Vec3) (r : ℝ) :
    computePlacement DbType.minimalDogbone longSide e0 e1 V cv r 0 =
      computePlacement DbType.normalDogbone longSide e0 e1 V cv r 0 ∧
    centreDistance DbType.minimalDogbone r 0 = r ∧
    dbHoleOffset DbType.minimalDogbone r 0 = dbHoleOffset DbType.normalDogbone r 0 := by
  have hcd : centreDistance DbType.minimalDogbone r 0 = r := by
    simp [centreDistance]
  have hcd' : centreDistance DbType.normalDogbone r 0 = r := by
    simp [centreDistance]
  have hoff : dbHoleOffset DbType.minimalDogbone r 0 = dbHoleOffset DbType.normalDogbone r 0 := by
    simp [dbHoleOffset]
  refine ⟨?_, hcd, hoff⟩
  simp only [computePlacement, edgeOffsets]
  refine PlacementResult.mk_eq _ _ _ _ _ _ ?_ ?_ ?_ <;>
    simp [hcd, hcd', hoff]

theorem dot_normalize_self {v : Vec3} (hv : v ≠ 0) :
    dot (normalize v) (normalize v) = 1 := by
  have hq : 0 < dot v v := dot_self_pos hv
  have hs : Real.sqrt (dot v v) ≠ 0 := (Real.sqrt_pos.mpr hq).ne'
  simp only [normalize, dot_smul_left, dot_smul_right, Vec3.norm]
  field_simp

theorem dot_normalize_orthogonal {u v : Vec3} (h : dot u v = 0) :
    dot (normalize u) (normalize v) = 0 := by
  simp [normalize, dot_smul_left, dot_smul_right, h]

/-- C4: at a right-angle interior corner in Normal style the direct
bisector placement and the plane-plus-two-edge-offsets placement coincide
exactly (hence within the claimed `1e-6`): with `d1`, `d2` the corner
edge vectors pointing away from the corner (`correctedEdgeVector`),
mutually orthogonal and nonzero, and the two adjacent wall normals being
the unit vectors along the opposite edges, translating the corner vertex
by `r` along the normalised sum of the two unit normals lands on the
point reached by offsetting `r/√2` (the source's `dbHoleOffset` for
Normal style) along each of the two corner edges. -/
theorem normal_center_two_representations (e1 e2 : GEdge) (V : Vec3) (r p : ℝ)
    (n0 n1 : Vec3)
    (h1 : correctedEdgeVector e1 V ≠ 0)
    (h2 : correctedEdgeVector e2 V ≠ 0)
    (hperp : dot (correctedEdgeVector e1 V) (correctedEdgeVector e2 V) = 0)
    (hn0 : n0 = normalize (correctedEdgeVector e2 V))
    (hn1 : n1 = normalize (correctedEdgeVector e1 V)) :
    V + r • normalize (n0 + n1) =
      V + (dbHoleOffset DbType.normalDogbone r p • normalize (correctedEdgeVector e1 V) +
        dbHoleOffset DbType.normalDogbone r p • normalize (correctedEdgeVector e2 V)) ∧
    Vec3.norm ((V + r • normalize (n0 + n1)) -
        (V + (dbHoleOffset DbType.normalDogbone r p • normalize (correctedEdgeVector e1 V) +
          dbHoleOffset DbType.normalDogbone r p • normalize (correctedEdgeVector e2 V)))) ≤
      1 / 1000000 := by
  subst hn0 hn1
  set u := normalize (correctedEdgeVector e1 V) with hu
  set w := normalize (correctedEdgeVector e2 V) with hw
  have huu : dot u u = 1 := dot_normalize_self h1
  have hww : dot w w = 1 := dot_normalize_self h2
  have huw : dot u w = 0 := dot_normalize_orthogonal hperp
  have hwu : dot w u = 0 := by rw [dot_comm]; exact huw
  have hsum : dot (w + u) (w + u) = 2 := by
    rw [dot_add_left, dot_add_right, dot_add_right, huu, hww, huw, hwu]
    norm_num
  have hnorm : Vec3.norm (w + u) = Real.sqrt 2 := by
    rw [Vec3.norm, hsum]
  have hs2 : Real.sqrt 2 ≠ 0 := by positivity
  have hmain : V + r • normalize (w + u) =
      V + (dbHoleOffset DbType.normalDogbone r p • u + dbHoleOffset DbType.normalDogbone r p • w) := by
    simp only [normalize, hnorm, dbHoleOffset]
    ext <;> simp <;> field_simp <;> ring
  refine ⟨hmain, ?_⟩
  rw [hmain]
  have hzero : (V + (dbHoleOffset DbType.normalDogbone r p • u +
      dbHoleOffset DbType.normalDogbone r p • w)) -
      (V + (dbHoleOffset DbType.normalDogbone r p • u +
      dbHoleOffset DbType.normalDogbone r p • w)) = 0 := by
    ext <;> simp
  rw [hzero]
  have : Vec3.norm 0 = 0 := by
    simp [Vec3.norm, dot]
  rw [this]
  norm_num

/-- Witness for C4: corner at the origin, corner edges along `x` and `y`,
tool radius `1`. -/
def unitEdgeY : GEdge := ⟨⟨0, 0, 0⟩, ⟨0, 1, 0⟩⟩

theorem normal_center_two_representations_witness :
    (⟨0, 0, 0⟩ : Vec3) + (1 : ℝ) •
        normalize (normalize (correctedEdgeVector unitEdgeY ⟨0, 0, 0⟩) +
          normalize (correctedEdgeVector unitEdgeX ⟨0, 0, 0⟩)) =
      (⟨0, 0, 0⟩ : Vec3) +
        (dbHoleOffset DbType.normalDogbone 1 0 • normalize (correctedEdgeVector unitEdgeX ⟨0, 0, 0⟩) +
          dbHoleOffset DbType.normalDogbone 1 0 • normalize (correctedEdgeVector unitEdgeY ⟨0, 0, 0⟩)) := by
  have hce1 : correctedEdgeVector unitEdgeX ⟨0, 0, 0⟩ = ⟨1, 0, 0⟩ := by
    rw [correctedEdgeVector,
      if_pos (show unitEdgeX.startGeom = ⟨0, 0, 0⟩ from rfl)]
    simp only [unitEdgeX, vectorTo]
    ext <;> simp
  have hce2 : correctedEdgeVector unitEdgeY ⟨0, 0, 0⟩ = ⟨0, 1, 0⟩ := by
    rw [correctedEdgeVector,
      if_pos (show unitEdgeY.startGeom = ⟨0, 0, 0⟩ from rfl)]
    simp only [unitEdgeY, vectorTo]
    ext <;> simp
  refine (normal_center_two_representations unitEdgeX unitEdgeY ⟨0, 0, 0⟩ 1 0 _ _
    ?_ ?_ ?_ rfl rfl).1
  · rw [hce1]
    intro hcon
    have := congrArg Vec3.x hcon
    simp at this
  · rw [hce2]
    intro hcon
    have := congrArg Vec3.y hcon
    simp at this
  · rw [hce1, hce2]
    simp [dot]

end DB
